import Mathlib

/-!
Verification of the synchronization engine of `sphinx-notionbuilder`.

The definitions below are shallow embeddings of the Python source:

* `src/sphinx_notion/_upload.py` — the prefix/suffix diff
  (`_find_matching_prefix_and_suffix_lengths`), the block equivalence
  checker (`_is_existing_equivalent`), the sync planner inside
  `upload_to_notion`, and the rate-limit retry wrapper
  (`_retry_on_rate_limit`);
* `src/_notion_scripts/upload.py` — the rich-text splitter
  (`_split_rich_text`);
* `src/_notion_scripts/upload_files.py` — the SHA-mapping upload tool
  (`main`, `_process_file_url`).
-/

namespace SphinxNotion

/-- Embedding of `_MatchLengths`: matching prefix/suffix lengths for block
diffing. -/
structure MatchLengths where
  prefixLen : Nat
  suffixLen : Nat
deriving DecidableEq, Repr

/-- The prefix loop of `_find_matching_prefix_and_suffix_lengths`: count
equivalent positional pairs from the start, stopping at the first mismatch
or at the end of the shorter sequence. -/
def countLeadingMatches (eq : α → α → Bool) : List α → List α → Nat
  | e :: es, l :: ls => if eq e l then countLeadingMatches eq es ls + 1 else 0
  | _, _ => 0

/-- The suffix loop of `_find_matching_prefix_and_suffix_lengths`: the same
count, but bounded (the Python loop runs `i` over
`range(1, min_len - prefix_len + 1)`). -/
def countLeadingMatchesBounded (eq : α → α → Bool) :
    Nat → List α → List α → Nat
  | 0, _, _ => 0
  | bound + 1, e :: es, l :: ls =>
      if eq e l then countLeadingMatchesBounded eq bound es ls + 1 else 0
  | _ + 1, _, _ => 0

/-- Embedding of `_find_matching_prefix_and_suffix_lengths`.  The suffix
scan walks the sequences from the end (Python indexes `existing[-i]`,
`local[-i]`), which is the leading scan of the reversed sequences, bounded
by `min_len - prefix_len`. -/
def findMatchingPrefixAndSuffixLengths (eq : α → α → Bool)
    (existingBlocks localBlocks : List α) : MatchLengths :=
  let minLen := min existingBlocks.length localBlocks.length
  let p := countLeadingMatches eq existingBlocks localBlocks
  let s := countLeadingMatchesBounded eq (minLen - p)
    existingBlocks.reverse localBlocks.reverse
  ⟨p, s⟩

/-- The match lengths actually used by `upload_to_notion`: immediately after
calling the diff it forces `suffix_len = 0` when `prefix_len == 0` (the
Notion API cannot insert before the first block). -/
def matchLengthsUsed (eq : α → α → Bool)
    (existingBlocks localBlocks : List α) : MatchLengths :=
  let m := findMatchingPrefixAndSuffixLengths eq existingBlocks localBlocks
  if m.prefixLen = 0 then ⟨m.prefixLen, 0⟩ else m

/-- Positional pair equivalence at index `i` (false out of range). -/
def pairEq (eq : α → α → Bool) (es ls : List α) (i : Nat) : Bool :=
  match es[i]?, ls[i]? with
  | some a, some b => eq a b
  | _, _ => false

lemma countLeadingMatches_le (eq : α → α → Bool) :
    ∀ (es ls : List α),
      countLeadingMatches eq es ls ≤ min es.length ls.length := by
  intro es
  induction es with
  | nil => intro ls; cases ls <;> simp [countLeadingMatches]
  | cons e es ih =>
      intro ls
      cases ls with
      | nil => simp [countLeadingMatches]
      | cons l ls =>
          by_cases h : eq e l = true
          · have := ih ls
            simp only [countLeadingMatches, h, if_pos, List.length_cons]
            omega
          · simp [countLeadingMatches, h]

lemma countLeadingMatchesBounded_le (eq : α → α → Bool) :
    ∀ (b : Nat) (es ls : List α),
      countLeadingMatchesBounded eq b es ls ≤ b := by
  intro b
  induction b with
  | zero => intro es ls; simp [countLeadingMatchesBounded]
  | succ b ih =>
      intro es ls
      cases es with
      | nil => simp [countLeadingMatchesBounded]
      | cons e es =>
          cases ls with
          | nil => simp [countLeadingMatchesBounded]
          | cons l ls =>
              by_cases h : eq e l = true
              · have := ih es ls
                simp [countLeadingMatchesBounded, h]
                omega
              · simp [countLeadingMatchesBounded, h]

/-- C1.  For every pair of block sequences, the prefix/suffix diff together
with the caller's enforcement step (`upload_to_notion` forces
`suffix_len = 0` when `prefix_len == 0`) returns lengths satisfying
`prefix_len + suffix_len ≤ min (len existing) (len local)`, and the used
lengths have `suffix_len = 0` whenever `prefix_len = 0`.  The sum bound
already holds for the raw diff result. -/
theorem diff_matchResult_invariant (eq : α → α → Bool)
    (existingBlocks localBlocks : List α) :
    ((findMatchingPrefixAndSuffixLengths eq existingBlocks
        localBlocks).prefixLen +
      (findMatchingPrefixAndSuffixLengths eq existingBlocks
        localBlocks).suffixLen ≤
      min existingBlocks.length localBlocks.length) ∧
    ((matchLengthsUsed eq existingBlocks localBlocks).prefixLen +
      (matchLengthsUsed eq existingBlocks localBlocks).suffixLen ≤
      min existingBlocks.length localBlocks.length) ∧
    ((matchLengthsUsed eq existingBlocks localBlocks).prefixLen = 0 →
      (matchLengthsUsed eq existingBlocks localBlocks).suffixLen = 0) := by
  have hp := countLeadingMatches_le eq existingBlocks localBlocks
  have hs := countLeadingMatchesBounded_le eq
    (min existingBlocks.length localBlocks.length -
      countLeadingMatches eq existingBlocks localBlocks)
    existingBlocks.reverse localBlocks.reverse
  have hraw :
      (findMatchingPrefixAndSuffixLengths eq existingBlocks
          localBlocks).prefixLen +
        (findMatchingPrefixAndSuffixLengths eq existingBlocks
          localBlocks).suffixLen ≤
        min existingBlocks.length localBlocks.length := by
    simp only [findMatchingPrefixAndSuffixLengths]
    omega
  refine ⟨hraw, ?_, ?_⟩
  · by_cases h0 :
      (findMatchingPrefixAndSuffixLengths eq existingBlocks
        localBlocks).prefixLen = 0
    · simp only [matchLengthsUsed, h0, if_pos]
      simp only [h0, Nat.zero_add] at hraw ⊢
      simp
    · simp only [matchLengthsUsed]
      rw [if_neg h0]
      exact hraw
  · intro hz
    by_cases h0 :
      (findMatchingPrefixAndSuffixLengths eq existingBlocks
        localBlocks).prefixLen = 0
    · simp [matchLengthsUsed, h0]
    · simp only [matchLengthsUsed] at hz ⊢
      rw [if_neg h0] at hz
      exact absurd hz h0

/-- Witness for `diff_matchResult_invariant`: with no matching prefix the
used suffix length is forced to zero. -/
theorem diff_matchResult_invariant_witness :
    (matchLengthsUsed (fun _ _ : Nat => false) [0] [1]).suffixLen = 0 :=
  (diff_matchResult_invariant (fun _ _ : Nat => false) [0] [1]).2.2
    (by decide)

lemma pairEq_cons_succ (eq : α → α → Bool) (e l : α) (es ls : List α)
    (i : Nat) : pairEq eq (e :: es) (l :: ls) (i + 1) = pairEq eq es ls i := by
  simp [pairEq]

lemma pairEq_cons_zero (eq : α → α → Bool) (e l : α) (es ls : List α) :
    pairEq eq (e :: es) (l :: ls) 0 = eq e l := by
  simp [pairEq]

lemma countLeadingMatches_pairEq (eq : α → α → Bool) :
    ∀ (es ls : List α) (i : Nat), i < countLeadingMatches eq es ls →
      pairEq eq es ls i = true := by
  intro es
  induction es with
  | nil => intro ls i h; simp [countLeadingMatches] at h
  | cons e es ih =>
      intro ls i h
      cases ls with
      | nil => simp [countLeadingMatches] at h
      | cons l ls =>
          by_cases he : eq e l = true
          · simp only [countLeadingMatches, he, if_pos] at h
            cases i with
            | zero => simpa [pairEq_cons_zero] using he
            | succ i =>
                rw [pairEq_cons_succ]
                exact ih ls i (by omega)
          · simp [countLeadingMatches, he] at h

lemma countLeadingMatches_stop (eq : α → α → Bool) :
    ∀ (es ls : List α),
      pairEq eq es ls (countLeadingMatches eq es ls) = false := by
  intro es
  induction es with
  | nil => intro ls; simp [countLeadingMatches, pairEq]
  | cons e es ih =>
      intro ls
      cases ls with
      | nil => simp [countLeadingMatches, pairEq]
      | cons l ls =>
          by_cases he : eq e l = true
          · simp only [countLeadingMatches, he, if_pos]
            rw [pairEq_cons_succ]
            exact ih ls
          · simp only [countLeadingMatches, he, if_neg, Bool.false_eq_true]
            simpa [pairEq_cons_zero] using he

lemma countLeadingMatchesBounded_eq_min (eq : α → α → Bool) :
    ∀ (b : Nat) (es ls : List α),
      countLeadingMatchesBounded eq b es ls =
        min (countLeadingMatches eq es ls) b := by
  intro b
  induction b with
  | zero => intro es ls; simp [countLeadingMatchesBounded]
  | succ b ih =>
      intro es ls
      cases es with
      | nil => simp [countLeadingMatchesBounded, countLeadingMatches]
      | cons e es =>
          cases ls with
          | nil => simp [countLeadingMatchesBounded, countLeadingMatches]
          | cons l ls =>
              by_cases he : eq e l = true
              · simp only [countLeadingMatchesBounded, he, if_pos,
                  countLeadingMatches, ih es ls]
                omega
              · simp [countLeadingMatchesBounded, he, countLeadingMatches]

/-- C2.  The diff's `prefix_len` is the longest leading run of positionally
equivalent pairs, and its `suffix_len` is the longest trailing run among
indices not already claimed by the prefix (trailing position `j` pairs
`existing[-(j+1)]` with `local[-(j+1)]`, i.e. position `j` of the reversed
sequences; the bound is `min_len - prefix_len`).  In particular for
`existing = [A, B, C]`, `local = [A, X, C]` with `A ~ A`, `C ~ C`, `B ≁ X`
the diff yields `prefix_len = 1` and `suffix_len = 1`. -/
theorem diff_longest_runs (eq : α → α → Bool)
    (existingBlocks localBlocks : List α) :
    (∀ i < (findMatchingPrefixAndSuffixLengths eq existingBlocks
        localBlocks).prefixLen,
      pairEq eq existingBlocks localBlocks i = true) ∧
    (∀ q, (∀ i < q, pairEq eq existingBlocks localBlocks i = true) →
      q ≤ (findMatchingPrefixAndSuffixLengths eq existingBlocks
        localBlocks).prefixLen) ∧
    ((findMatchingPrefixAndSuffixLengths eq existingBlocks
        localBlocks).suffixLen ≤
      min existingBlocks.length localBlocks.length -
        (findMatchingPrefixAndSuffixLengths eq existingBlocks
          localBlocks).prefixLen) ∧
    (∀ j < (findMatchingPrefixAndSuffixLengths eq existingBlocks
        localBlocks).suffixLen,
      pairEq eq existingBlocks.reverse localBlocks.reverse j = true) ∧
    (∀ t, t ≤ min existingBlocks.length localBlocks.length -
        (findMatchingPrefixAndSuffixLengths eq existingBlocks
          localBlocks).prefixLen →
      (∀ j < t, pairEq eq existingBlocks.reverse localBlocks.reverse j =
        true) →
      t ≤ (findMatchingPrefixAndSuffixLengths eq existingBlocks
        localBlocks).suffixLen) ∧
    (∀ (A B C X : α), eq A A = true → eq C C = true → eq B X = false →
      findMatchingPrefixAndSuffixLengths eq [A, B, C] [A, X, C] = ⟨1, 1⟩) := by
  simp only [findMatchingPrefixAndSuffixLengths]
  rw [countLeadingMatchesBounded_eq_min]
  refine ⟨?_, ?_, ?_, ?_, ?_, ?_⟩
  · intro i hi
    exact countLeadingMatches_pairEq eq existingBlocks localBlocks i hi
  · intro q hq
    by_contra hgt
    have hlt : countLeadingMatches eq existingBlocks localBlocks < q := by
      omega
    have := hq _ hlt
    rw [countLeadingMatches_stop] at this
    exact absurd this (by simp)
  · exact Nat.min_le_right _ _
  · intro j hj
    have hj' : j < countLeadingMatches eq existingBlocks.reverse
        localBlocks.reverse := lt_of_lt_of_le hj (Nat.min_le_left _ _)
    exact countLeadingMatches_pairEq eq _ _ j hj'
  · intro t hle hall
    by_contra hgt
    have hrun : countLeadingMatches eq existingBlocks.reverse
        localBlocks.reverse < t := by omega
    have := hall _ hrun
    rw [countLeadingMatches_stop] at this
    exact absurd this (by simp)
  · intro A B C X hAA hCC hBX
    simp [countLeadingMatches, countLeadingMatchesBounded, hAA, hCC, hBX]

/-- Witness for `diff_longest_runs` at concrete inputs (equality on `Nat`
as the equivalence, `existing = [0, 1, 2]`, `local = [0, 9, 2]`). -/
theorem diff_longest_runs_witness :
    findMatchingPrefixAndSuffixLengths (fun a b : Nat => a == b)
      [0, 1, 2] [0, 9, 2] = ⟨1, 1⟩ :=
  (diff_longest_runs (fun a b : Nat => a == b) [0, 1, 2] [0, 9, 2]).2.2.2.2.2
    0 1 2 9 (by decide) (by decide) (by decide)

/-- The delete/upload ranges computed by `upload_to_notion` (lines 446-462):
run the diff, force `suffix_len = 0` when `prefix_len == 0`, then slice
`existing[prefix_len:existing_end]` and `local[prefix_len:local_end]`
(a Python slice `a[i:j]` is `(a.take j).drop i`). -/
structure SyncPlan (α : Type) where
  prefixLen : Nat
  suffixLen : Nat
  blocksToDelete : List α
  blocksToUpload : List α

def computeSyncPlan (eq : α → α → Bool)
    (existingBlocks localBlocks : List α) : SyncPlan α :=
  let m := findMatchingPrefixAndSuffixLengths eq existingBlocks localBlocks
  let p := m.prefixLen
  let s := if p = 0 then 0 else m.suffixLen
  let existingEnd := existingBlocks.length - s
  let localEnd := localBlocks.length - s
  ⟨p, s, (existingBlocks.take existingEnd).drop p,
    (localBlocks.take localEnd).drop p⟩

/-- Embedding of `DiscussionsExistError`, carrying the two numbers its
message reports: the count of blocks to delete that have discussions, and
the total number of discussion threads on them. -/
structure DiscussionsExistError where
  affectedBlocks : Nat
  discussionThreads : Nat
deriving DecidableEq, Repr

/-- The remote calls issued by the sync portion of `upload_to_notion`:
one delete per block of the delete range (in order), then a single
batched append of the upload range anchored after the last prefix block. -/
inductive SyncAction (α : Type) where
  | delete (b : α)
  | append (bs : List α) (after : Option α)
deriving DecidableEq

/-- Embedding of the sync portion of `upload_to_notion` (lines 446-518):
compute the plan, check the discussion guard (raising
`DiscussionsExistError` before any delete call), then issue the deletes
and, if the upload range is non-empty, the append. -/
def uploadSyncActions (eq : α → α → Bool) (discussions : α → Nat)
    (cancelOnDiscussion : Bool) (existingBlocks localBlocks : List α) :
    Except DiscussionsExistError (List (SyncAction α)) :=
  let plan := computeSyncPlan eq existingBlocks localBlocks
  let withDiscussions :=
    plan.blocksToDelete.filter fun b => decide (0 < discussions b)
  if cancelOnDiscussion && !withDiscussions.isEmpty then
    Except.error ⟨withDiscussions.length,
      (withDiscussions.map discussions).sum⟩
  else
    Except.ok (plan.blocksToDelete.map SyncAction.delete ++
      (if !plan.blocksToUpload.isEmpty then
        [SyncAction.append plan.blocksToUpload
          (if 0 < plan.prefixLen then existingBlocks[plan.prefixLen - 1]?
           else none)]
       else []))

lemma countLeadingMatches_full (eq : α → α → Bool) :
    ∀ (es ls : List α), es.length = ls.length →
      (∀ i < es.length, pairEq eq es ls i = true) →
      countLeadingMatches eq es ls = es.length := by
  intro es
  induction es with
  | nil => intro ls _ _; simp [countLeadingMatches]
  | cons e es ih =>
      intro ls hlen hall
      cases ls with
      | nil => simp at hlen
      | cons l ls =>
          have h0 : eq e l = true := by
            have := hall 0 (by simp)
            simpa [pairEq_cons_zero] using this
          have htail : countLeadingMatches eq es ls = es.length := by
            refine ih ls (by simpa using hlen) ?_
            intro i hi
            have := hall (i + 1) (by simpa using Nat.succ_lt_succ hi)
            simpa [pairEq_cons_succ] using this
          simp [countLeadingMatches, h0, htail]

/-- C3.  If existing and local have the same length and every positional
pair is equivalent, the sync computes an empty delete range and an empty
upload range and issues zero delete calls and zero append calls, so a
second run over an unchanged local tree does nothing. -/
theorem unchanged_tree_second_run_noop (eq : α → α → Bool)
    (discussions : α → Nat) (cancelOnDiscussion : Bool)
    (existingBlocks localBlocks : List α)
    (hlen : existingBlocks.length = localBlocks.length)
    (hall : ∀ i < existingBlocks.length,
      pairEq eq existingBlocks localBlocks i = true) :
    (computeSyncPlan eq existingBlocks localBlocks).blocksToDelete = [] ∧
    (computeSyncPlan eq existingBlocks localBlocks).blocksToUpload = [] ∧
    uploadSyncActions eq discussions cancelOnDiscussion existingBlocks
      localBlocks = Except.ok [] := by
  have hfull := countLeadingMatches_full eq existingBlocks localBlocks hlen
    hall
  have hplanDel :
      (computeSyncPlan eq existingBlocks localBlocks).blocksToDelete = [] := by
    simp only [computeSyncPlan, findMatchingPrefixAndSuffixLengths, hfull]
    by_cases h0 : existingBlocks.length = 0
    · simp [h0, List.drop_eq_nil_of_le]
    · rw [if_neg h0]
      rw [countLeadingMatchesBounded_eq_min]
      simp [hlen, List.drop_eq_nil_of_le, List.length_take]
  have hplanUp :
      (computeSyncPlan eq existingBlocks localBlocks).blocksToUpload = [] := by
    simp only [computeSyncPlan, findMatchingPrefixAndSuffixLengths, hfull]
    by_cases h0 : existingBlocks.length = 0
    · simp [h0, List.drop_eq_nil_of_le, ← hlen]
    · rw [if_neg h0]
      rw [countLeadingMatchesBounded_eq_min]
      simp [hlen, List.drop_eq_nil_of_le, List.length_take]
  refine ⟨hplanDel, hplanUp, ?_⟩
  simp [uploadSyncActions, hplanDel, hplanUp]

/-- Witness for `unchanged_tree_second_run_noop` at a concrete input. -/
theorem unchanged_tree_second_run_noop_witness :
    uploadSyncActions (fun a b : Nat => a == b) (fun _ => 0) true
      [5, 6] [5, 6] = Except.ok [] :=
  (unchanged_tree_second_run_noop (fun a b : Nat => a == b) (fun _ => 0)
    true [5, 6] [5, 6] (by decide) (by decide)).2.2

/-- C8.  With discussion protection requested, if some block of the delete
range carries a discussion thread, the run fails with an error reporting
the number of affected blocks and the total number of discussion threads,
and the failure happens before any delete call is issued (the action trace
is empty: the result is the error, not a list of performed calls). -/
theorem discussions_cancel_before_delete (eq : α → α → Bool)
    (discussions : α → Nat) (existingBlocks localBlocks : List α)
    (hexists : ∃ b ∈ (computeSyncPlan eq existingBlocks
      localBlocks).blocksToDelete, 0 < discussions b) :
    uploadSyncActions eq discussions true existingBlocks localBlocks =
      Except.error
        ⟨((computeSyncPlan eq existingBlocks localBlocks).blocksToDelete.filter
            fun b => decide (0 < discussions b)).length,
          (((computeSyncPlan eq existingBlocks
              localBlocks).blocksToDelete.filter
            fun b => decide (0 < discussions b)).map discussions).sum⟩ := by
  obtain ⟨b, hb, hd⟩ := hexists
  have hmem : b ∈ (computeSyncPlan eq existingBlocks
      localBlocks).blocksToDelete.filter fun b => decide (0 < discussions b) :=
    List.mem_filter.mpr ⟨hb, by simpa using hd⟩
  have hne : ((computeSyncPlan eq existingBlocks
      localBlocks).blocksToDelete.filter
        fun b => decide (0 < discussions b)).isEmpty = false := by
    cases hfilter : (computeSyncPlan eq existingBlocks
        localBlocks).blocksToDelete.filter
          fun b => decide (0 < discussions b) with
    | nil => rw [hfilter] at hmem; simp at hmem
    | cons x xs => simp [hfilter]
  simp [uploadSyncActions, hne]

/-- Witness for `discussions_cancel_before_delete` at a concrete input:
existing `[1, 2]`, local `[1, 3]` (delete range `[2]`), block `2` carrying
two discussion threads. -/
theorem discussions_cancel_before_delete_witness :
    uploadSyncActions (fun a b : Nat => a == b)
      (fun b => if b = 2 then 2 else 0) true [1, 2] [1, 3] =
      Except.error ⟨1, 2⟩ := by
  have h := discussions_cancel_before_delete (fun a b : Nat => a == b)
    (fun b => if b = 2 then 2 else 0) [1, 2] [1, 3]
    ⟨2, by decide, by decide⟩
  simpa using h

/-- The file block classes (`_FILE_BLOCK_TYPES`): `Image`, `Video`,
`Audio`, `PDF`, `File`. -/
inductive FileKind where
  | image | video | audio | pdf | file
deriving DecidableEq, Repr

/-- The `ParentBlock` (child-bearing) block classes. -/
inductive ParentKind where
  | paragraph | heading | bulletedItem | numberedItem | toggle | quote
  | callout
deriving DecidableEq, Repr

/-- Block classes that bear neither children nor a file. -/
inductive LeafKind where
  | divider | breadcrumb | equation
deriving DecidableEq, Repr

/-- The `file_info` of a file block: whether it is a `NotionFile` (as
opposed to an `ExternalFile`), plus its `url`, `name` and `caption`. -/
structure FileInfo where
  isNotionFile : Bool
  url : String
  name : String
  caption : String
deriving DecidableEq, Repr

/-- Shallow embedding of the `ultimate_notion` block values the engine
manipulates: file blocks carry a `FileInfo`; parent blocks carry their
non-child payload (opaque, serialized) and an ordered child list; leaf
blocks carry only their payload. -/
inductive Block where
  | fileBlock (kind : FileKind) (info : FileInfo)
  | parentBlock (kind : ParentKind) (fields : String) (children : List Block)
  | leafBlock (kind : LeafKind) (fields : String)

/-- The Python class of a block (`type(block)`), which is per-kind. -/
inductive BlockType where
  | file (k : FileKind)
  | parent (k : ParentKind)
  | leaf (k : LeafKind)
deriving DecidableEq, Repr

def blockType : Block → BlockType
  | .fileBlock k _ => .file k
  | .parentBlock k _ _ => .parent k
  | .leafBlock k _ => .leaf k

mutual
/-- Structural equality of blocks (`ultimate_notion`'s `==` on serialized
content). -/
def blockEq : Block → Block → Bool
  | .fileBlock ke ie, .fileBlock kl il => ke = kl ∧ ie = il
  | .parentBlock ke fe ce, .parentBlock kl fl cl =>
      decide (ke = kl) && decide (fe = fl) && blockListEq ce cl
  | .leafBlock ke fe, .leafBlock kl fl => ke = kl ∧ fe = fl
  | _, _ => false

def blockListEq : List Block → List Block → Bool
  | [], [] => true
  | e :: es, l :: ls => blockEq e l && blockListEq es ls
  | _, _ => false
end

/-- `urlparse(url).scheme == "file"` on the URLs the builder produces
(spelled over the character list so that it evaluates by `decide`). -/
def schemeIsFile (url : String) : Bool :=
  url.toList.take 7 == "file://".toList

/-- `url2pathname(urlparse(url).path)`: the local path behind a file URL. -/
def filePathOfUrl (url : String) : String :=
  String.mk (url.toList.drop 7)

/-- Embedding of `_block_without_children`. -/
def blockWithoutChildren : Block → Block
  | .parentBlock k f _ => .parentBlock k f []
  | b => b

/-- Embedding of `_files_match`: the existing remote file's digest
(`_calculate_file_sha_from_url`) equals the local file's digest
(`_calculate_file_sha`).  The two digest computations are abstracted as
oracles since they stream remote/disk bytes. -/
def filesMatch (shaFromUrl shaFromPath : String → String)
    (existingFileUrl localFilePath : String) : Bool :=
  shaFromUrl existingFileUrl == shaFromPath localFilePath

mutual
/-- Embedding of `_is_existing_equivalent`.  `fm` is the `_files_match`
capability (existing file URL, local file path).  Mirrors the source:
different Python class ⇒ false; a local file block backed by a `file://`
URL compares `NotionFile`-ness, name and caption and then file digests;
parent blocks compare their children-stripped serialization and child
counts, then recurse over positional child pairs; everything else is
structural equality. -/
def isExistingEquivalent (fm : String → String → Bool) :
    Block → Block → Bool
  | .fileBlock ke einfo, .fileBlock kl linfo =>
      if ke = kl then
        if schemeIsFile linfo.url then
          if einfo.isNotionFile = false ∨ einfo.name ≠ linfo.name ∨
              einfo.caption ≠ linfo.caption then false
          else fm einfo.url (filePathOfUrl linfo.url)
        else blockEq (.fileBlock ke einfo) (.fileBlock kl linfo)
      else false
  | .parentBlock ke fe ce, .parentBlock kl fl cl =>
      if ke = kl then
        if blockEq (blockWithoutChildren (.parentBlock ke fe ce))
            (blockWithoutChildren (.parentBlock kl fl cl)) = false ∨
            ce.length ≠ cl.length then false
        else allExistingEquivalent fm ce cl
      else false
  | .leafBlock ke fe, .leafBlock kl fl =>
      if ke = kl then blockEq (.leafBlock ke fe) (.leafBlock kl fl)
      else false
  | _, _ => false

/-- `all(... for ... in zip(existing_children, local_children))`. -/
def allExistingEquivalent (fm : String → String → Bool) :
    List Block → List Block → Bool
  | e :: es, l :: ls =>
      isExistingEquivalent fm e l && allExistingEquivalent fm es ls
  | _, _ => true
end

lemma allExistingEquivalent_false_of_pair (fm : String → String → Bool) :
    ∀ (ce cl : List Block) (i : Nat),
      i < ce.length → i < cl.length →
      pairEq (isExistingEquivalent fm) ce cl i = false →
      allExistingEquivalent fm ce cl = false := by
  intro ce
  induction ce with
  | nil => intro cl i hi _ _; simp at hi
  | cons e es ih =>
      intro cl i hi hj hpair
      cases cl with
      | nil => simp at hj
      | cons l ls =>
          cases i with
          | zero =>
              rw [pairEq_cons_zero] at hpair
              simp [allExistingEquivalent, hpair]
          | succ i =>
              rw [pairEq_cons_succ] at hpair
              have := ih ls i (by simpa using hi) (by simpa using hj) hpair
              simp [allExistingEquivalent, this]

/-- C4.  The equivalence checker returns "not equivalent" when the two
blocks have different Python classes (kinds); and for parent blocks it
returns "not equivalent" whenever the non-child payload differs once
children are stripped, or the child counts differ, or some positional
child pair is recursively non-equivalent. -/
theorem equivalence_checker_rejects_mismatch (fm : String → String → Bool)
    (e l : Block)
    (h : blockType e ≠ blockType l ∨
      ∃ ke fe ce kl fl cl, e = Block.parentBlock ke fe ce ∧
        l = Block.parentBlock kl fl cl ∧
        (fe ≠ fl ∨ ce.length ≠ cl.length ∨
          ∃ i, i < ce.length ∧ i < cl.length ∧
            pairEq (isExistingEquivalent fm) ce cl i = false)) :
    isExistingEquivalent fm e l = false := by
  rcases h with htype | hparent
  · cases e <;> cases l <;>
      simp_all [isExistingEquivalent, blockType]
  · obtain ⟨ke, fe, ce, kl, fl, cl, he, hl, hbad⟩ := hparent
    subst he
    subst hl
    by_cases hk : ke = kl
    · subst hk
      simp only [isExistingEquivalent, if_pos]
      by_cases hcond : blockEq
          (blockWithoutChildren (Block.parentBlock ke fe ce))
          (blockWithoutChildren (Block.parentBlock ke fl cl)) = false ∨
          ce.length ≠ cl.length
      · rw [if_pos hcond]
      · rw [if_neg hcond]
        push_neg at hcond
        obtain ⟨hbeq, hlen⟩ := hcond
        have hfe : fe = fl := by
          by_contra hfe
          apply hbeq
          simp [blockWithoutChildren, blockEq, blockListEq, hfe]
        rcases hbad with hbad | hbad | ⟨i, hi, hj, hpair⟩
        · exact absurd hfe hbad
        · exact absurd hlen hbad
        · exact allExistingEquivalent_false_of_pair fm ce cl i hi hj hpair
    · simp [isExistingEquivalent, hk]

/-- Witness for `equivalence_checker_rejects_mismatch`: two paragraph
blocks with different non-child payloads. -/
theorem equivalence_checker_rejects_mismatch_witness :
    isExistingEquivalent (fun _ _ => false)
      (Block.parentBlock ParentKind.paragraph "alpha" [])
      (Block.parentBlock ParentKind.paragraph "beta" []) = false :=
  equivalence_checker_rejects_mismatch (fun _ _ => false) _ _
    (Or.inr ⟨ParentKind.paragraph, "alpha", [], ParentKind.paragraph,
      "beta", [], rfl, rfl, Or.inl (by decide)⟩)

/-- C5.  For file blocks where the local block is backed by a local
(`file://`) path, a differing stored file name or caption makes the
checker judge them non-equivalent even when the two files' content
digests are identical. -/
theorem file_name_caption_sensitivity (shaFromUrl shaFromPath : String →
      String) (ke kl : FileKind) (einfo linfo : FileInfo)
    (hscheme : schemeIsFile linfo.url = true)
    (hdiff : einfo.name ≠ linfo.name ∨ einfo.caption ≠ linfo.caption)
    (hdigest : shaFromUrl einfo.url =
      shaFromPath (filePathOfUrl linfo.url)) :
    isExistingEquivalent (filesMatch shaFromUrl shaFromPath)
      (Block.fileBlock ke einfo) (Block.fileBlock kl linfo) = false := by
  by_cases hk : ke = kl
  · subst hk
    simp only [isExistingEquivalent, if_pos, hscheme, if_true]
    rw [if_pos (Or.inr hdiff)]
  · simp [isExistingEquivalent, hk]

/-- Witness for `file_name_caption_sensitivity`: identical bytes (both
digest oracles constantly `"d"`) but different display names. -/
theorem file_name_caption_sensitivity_witness :
    isExistingEquivalent (filesMatch (fun _ => "d") (fun _ => "d"))
      (Block.fileBlock FileKind.image
        ⟨true, "https://notion.example/a.png", "name-one", "cap"⟩)
      (Block.fileBlock FileKind.image
        ⟨false, "file:///tmp/a.png", "name-two", "cap"⟩) = false :=
  file_name_caption_sensitivity (fun _ => "d") (fun _ => "d")
    FileKind.image FileKind.image
    ⟨true, "https://notion.example/a.png", "name-one", "cap"⟩
    ⟨false, "file:///tmp/a.png", "name-two", "cap"⟩
    (by decide) (Or.inl (by decide)) rfl

/-- Outcome of one invocation of the wrapped callable `fn`: a value, or an
`APIResponseError` with its `code`. -/
inductive CallResult (α : Type) where
  | ok (v : α)
  | apiError (code : String)
deriving DecidableEq, Repr

/-- Outcome of `_retry_on_rate_limit`: the value, a re-raised error, or the
(unreachable for `_MAX_RETRIES ≥ 1`) trailing `AssertionError`. -/
inductive RetryOutcome (α : Type) where
  | ok (v : α)
  | raised (code : String)
  | unreachableAssertion
deriving DecidableEq, Repr

/-- `_MAX_RETRIES = 8`. -/
def MAX_RETRIES : Nat := 8

/-- The loop of `_retry_on_rate_limit`, starting at `attempt` with
`remaining` iterations left (`remaining = _MAX_RETRIES - attempt`; the
current iteration is the last one when `remaining - 1 = 0`).  Returns the
outcome, the list of back-off sleeps performed (each
`min(2 ** attempt, 60)` seconds, in order), and how many times `fn` was
invoked.  Exhausting the loop without returning is the trailing
`AssertionError`. -/
def retryLoop (calls : Nat → CallResult α) :
    Nat → Nat → RetryOutcome α × List Nat × Nat
  | _, 0 => (RetryOutcome.unreachableAssertion, [], 0)
  | attempt, remaining + 1 =>
    match calls attempt with
    | CallResult.ok v => (RetryOutcome.ok v, [], 1)
    | CallResult.apiError code =>
        if code = "rate_limited" ∧ remaining ≠ 0 then
          let rest := retryLoop calls (attempt + 1) remaining
          (rest.1, min (2 ^ attempt) 60 :: rest.2.1, rest.2.2 + 1)
        else (RetryOutcome.raised code, [], 1)

/-- Embedding of `_retry_on_rate_limit`: run the loop from attempt 0 with
`_MAX_RETRIES` iterations available. -/
def retryOnRateLimit (calls : Nat → CallResult α) :
    RetryOutcome α × List Nat × Nat :=
  retryLoop calls 0 MAX_RETRIES

lemma retryLoop_sleeps_form (calls : Nat → CallResult α) :
    ∀ (r a : Nat), ∃ k,
      (retryLoop calls a r).2.1 =
        (List.range k).map (fun i => min (2 ^ (a + i)) 60) := by
  intro r
  induction r with
  | zero => intro a; exact ⟨0, by simp [retryLoop]⟩
  | succ r ih =>
      intro a
      cases hc : calls a with
      | ok v =>
          refine ⟨0, ?_⟩
          conv_lhs => rw [retryLoop]
          rw [hc]
          dsimp only
          simp
      | apiError code =>
          by_cases hcond : code = "rate_limited" ∧ r ≠ 0
          · obtain ⟨k, hk⟩ := ih (a + 1)
            refine ⟨k + 1, ?_⟩
            conv_lhs => rw [retryLoop]
            rw [hc]
            dsimp only
            rw [if_pos hcond]
            dsimp only
            rw [hk, List.range_succ_eq_map]
            simp only [List.map_cons, List.map_map, Nat.add_zero]
            refine congrArg₂ List.cons rfl ?_
            apply List.map_congr_left
            intro i _
            simp only [Function.comp_apply]
            have hexp : a + 1 + i = a + (i + 1) := by omega
            rw [hexp]
          · refine ⟨0, ?_⟩
            conv_lhs => rw [retryLoop]
            rw [hc]
            dsimp only
            rw [if_neg hcond]
            simp

lemma retryLoop_always_rate_limited (calls : Nat → CallResult α)
    (h : ∀ n, calls n = CallResult.apiError "rate_limited") :
    ∀ (r a : Nat),
      retryLoop calls a (r + 1) =
        (RetryOutcome.raised "rate_limited",
          (List.range r).map (fun i => min (2 ^ (a + i)) 60), r + 1) := by
  intro r
  induction r with
  | zero =>
      intro a
      conv_lhs => rw [retryLoop]
      rw [h a]
      dsimp only
      rw [if_neg (by simp)]
      simp
  | succ r ih =>
      intro a
      conv_lhs => rw [retryLoop]
      rw [h a]
      dsimp only
      rw [if_pos ⟨rfl, Nat.succ_ne_zero r⟩]
      rw [ih (a + 1)]
      dsimp only
      rw [List.range_succ_eq_map]
      simp only [List.map_cons, List.map_map, Nat.add_zero,
        Prod.mk.injEq, true_and, and_true]
      refine congrArg₂ List.cons rfl ?_
      apply List.map_congr_left
      intro i _
      simp only [Function.comp_apply]
      have hexp : a + 1 + i = a + (i + 1) := by omega
      rw [hexp]

/-- C6.  The retry wrapper: a first-call error that is not the rate-limit
signal is re-raised immediately (one invocation, no sleeps); a call that
always signals rate-limiting is invoked exactly `_MAX_RETRIES = 8` times,
sleeps `[1, 2, 4, 8, 16, 32, 60]` seconds between attempts, and then
re-raises the last rate-limit error; and in every run the `k`-th back-off
is `min(2 ^ k, 60)`, so the back-offs are non-decreasing and capped at
60. -/
theorem retry_on_rate_limit_behavior (calls : Nat → CallResult α) :
    (∀ code, code ≠ "rate_limited" →
      calls 0 = CallResult.apiError code →
      retryOnRateLimit calls = (RetryOutcome.raised code, [], 1)) ∧
    ((∀ n, calls n = CallResult.apiError "rate_limited") →
      retryOnRateLimit calls =
        (RetryOutcome.raised "rate_limited", [1, 2, 4, 8, 16, 32, 60], 8)) ∧
    ((retryOnRateLimit calls).2.1 =
      (List.range (retryOnRateLimit calls).2.1.length).map
        (fun i => min (2 ^ i) 60)) ∧
    List.Chain' (fun a b => a ≤ b) (retryOnRateLimit calls).2.1 ∧
    (∀ w ∈ (retryOnRateLimit calls).2.1, w ≤ 60) := by
  obtain ⟨k, hk⟩ := retryLoop_sleeps_form calls MAX_RETRIES 0
  simp only [Nat.zero_add] at hk
  have hform : (retryOnRateLimit calls).2.1 =
      (List.range (retryOnRateLimit calls).2.1.length).map
        (fun i => min (2 ^ i) 60) := by
    simp only [retryOnRateLimit] at hk ⊢
    rw [hk]
    simp [List.length_map, List.length_range]
  refine ⟨?_, ?_, hform, ?_, ?_⟩
  · intro code hcode hcall
    simp only [retryOnRateLimit, MAX_RETRIES]
    conv_lhs => rw [retryLoop]
    rw [hcall]
    dsimp only
    rw [if_neg (by simp [hcode])]
  · intro h
    have := retryLoop_always_rate_limited calls h 7 0
    simp only [retryOnRateLimit, MAX_RETRIES]
    rw [this]
    refine congrArg₂ Prod.mk rfl (congrArg₂ Prod.mk ?_ rfl)
    decide
  · rw [hform]
    have hpair : ((List.range
        (retryOnRateLimit calls).2.1.length).map
          (fun i => min (2 ^ i) 60)).Pairwise (fun a b => a ≤ b) := by
      rw [List.pairwise_map]
      refine (List.pairwise_lt_range _).imp ?_
      intro a b hab
      exact min_le_min (Nat.pow_le_pow_right (by omega) (le_of_lt hab))
        (le_refl 60)
    exact hpair.chain'
  · intro w hw
    rw [hform] at hw
    obtain ⟨i, _, hi⟩ := List.mem_map.mp hw
    omega

/-- Witness for `retry_on_rate_limit_behavior`: a call that always raises
the rate-limit signal. -/
theorem retry_on_rate_limit_behavior_witness :
    retryOnRateLimit (fun _ => (CallResult.apiError "rate_limited" :
        CallResult Unit)) =
      (RetryOutcome.raised "rate_limited", [1, 2, 4, 8, 16, 32, 60], 8) :=
  (retry_on_rate_limit_behavior
    (fun _ => (CallResult.apiError "rate_limited" : CallResult Unit))).2.1
    (fun _ => rfl)

/-- `NOTION_RICH_TEXT_LIMIT = 2000` (`_notion_scripts/upload.py`). -/
def NOTION_RICH_TEXT_LIMIT : Nat := 2000

/-- A rich-text object: either a text run (`obj["type"] == "text"` with a
`text.content`), carrying its content string and its remaining fields
(annotations, links — kept opaque), or any other rich-text object. -/
inductive RichText where
  | text (content : String) (fields : String)
  | other (payload : String)
deriving DecidableEq, Repr

/-- The chunking loop `for i in range(0, len(content), LIMIT)`: successive
`content[i : i + LIMIT]` slices (Python string length counts characters,
hence `List Char`). -/
def splitChunks : List Char → List (List Char)
  | [] => []
  | c :: cs =>
      ((c :: cs).take NOTION_RICH_TEXT_LIMIT) ::
        splitChunks ((c :: cs).drop NOTION_RICH_TEXT_LIMIT)
termination_by cs => cs.length
decreasing_by
  simp [NOTION_RICH_TEXT_LIMIT]
  omega

/-- Per-object body of `_split_rich_text`: an over-long text run becomes
one deep-copied object per chunk (same remaining fields, content replaced
by the chunk); everything else passes through unchanged. -/
def expandRichTextObj : RichText → List RichText
  | RichText.text content fields =>
      if NOTION_RICH_TEXT_LIMIT < content.length then
        (splitChunks content.toList).map
          (fun chunk => RichText.text (String.mk chunk) fields)
      else [RichText.text content fields]
  | RichText.other payload => [RichText.other payload]

/-- Embedding of `_split_rich_text`: the loop appends each object's
expansion in order. -/
def splitRichText (richText : List RichText) : List RichText :=
  (richText.map expandRichTextObj).flatten

/-- An object `_split_rich_text` passes through unchanged: a text run
whose content is within the limit, or a non-text object. -/
def keptWhole : RichText → Prop
  | RichText.text content _ => content.length ≤ NOTION_RICH_TEXT_LIMIT
  | RichText.other _ => True

lemma splitChunks_flatten_aux : ∀ (n : Nat) (cs : List Char),
    cs.length ≤ n → (splitChunks cs).flatten = cs := by
  intro n
  induction n with
  | zero =>
      intro cs h
      cases cs with
      | nil => simp [splitChunks]
      | cons c cs => simp at h
  | succ n ih =>
      intro cs h
      cases cs with
      | nil => simp [splitChunks]
      | cons c cs =>
          rw [splitChunks]
          simp only [List.flatten_cons]
          rw [ih ((c :: cs).drop NOTION_RICH_TEXT_LIMIT)
            (by simp [NOTION_RICH_TEXT_LIMIT] at h ⊢; omega)]
          exact List.take_append_drop _ _

lemma splitChunks_flatten (cs : List Char) :
    (splitChunks cs).flatten = cs :=
  splitChunks_flatten_aux cs.length cs (le_refl _)

lemma splitChunks_chunk_le_aux : ∀ (n : Nat) (cs : List Char),
    cs.length ≤ n →
    ∀ chunk ∈ splitChunks cs, chunk.length ≤ NOTION_RICH_TEXT_LIMIT := by
  intro n
  induction n with
  | zero =>
      intro cs h
      cases cs with
      | nil => simp [splitChunks]
      | cons c cs => simp at h
  | succ n ih =>
      intro cs h
      cases cs with
      | nil => simp [splitChunks]
      | cons c cs =>
          rw [splitChunks]
          intro chunk hchunk
          rcases List.mem_cons.mp hchunk with hhead | htail
          · subst hhead
            simpa using List.length_take_le _ _
          · exact ih ((c :: cs).drop NOTION_RICH_TEXT_LIMIT)
              (by simp [NOTION_RICH_TEXT_LIMIT] at h ⊢; omega) chunk htail

lemma splitChunks_chunk_le (cs : List Char) :
    ∀ chunk ∈ splitChunks cs, chunk.length ≤ NOTION_RICH_TEXT_LIMIT :=
  splitChunks_chunk_le_aux cs.length cs (le_refl _)

lemma expandRichTextObj_kept (obj : RichText) (h : keptWhole obj) :
    expandRichTextObj obj = [obj] := by
  cases obj with
  | text content fields =>
      simp only [keptWhole] at h
      simp [expandRichTextObj, Nat.not_lt.mpr h]
  | other payload => rfl

/-- C9.  The rich-text splitter: every text run in the output has content
of length at most `NOTION_RICH_TEXT_LIMIT = 2000`; runs within the limit
and non-text runs pass through unchanged in their original order; the
expansion is applied per-run in place (append homomorphism); and an
over-long text run is replaced by its consecutive chunks, in order, whose
concatenation is the original content and which carry the original
remaining fields. -/
theorem split_rich_text_spec (richText : List RichText) :
    (∀ c f, RichText.text c f ∈ splitRichText richText →
      c.length ≤ NOTION_RICH_TEXT_LIMIT) ∧
    ((∀ obj ∈ richText, keptWhole obj) →
      splitRichText richText = richText) ∧
    (∀ xs ys, splitRichText (xs ++ ys) =
      splitRichText xs ++ splitRichText ys) ∧
    (∀ c f, NOTION_RICH_TEXT_LIMIT < c.length →
      splitRichText [RichText.text c f] =
        (splitChunks c.toList).map
          (fun chunk => RichText.text (String.mk chunk) f) ∧
      (splitChunks c.toList).flatten = c.toList ∧
      ∀ chunk ∈ splitChunks c.toList,
        chunk.length ≤ NOTION_RICH_TEXT_LIMIT) := by
  refine ⟨?_, ?_, ?_, ?_⟩
  · intro c f hmem
    simp only [splitRichText, List.mem_flatten, List.mem_map] at hmem
    obtain ⟨l, ⟨obj, hobj, hexp⟩, hin⟩ := hmem
    subst hexp
    cases obj with
    | text c0 f0 =>
        by_cases hlong : NOTION_RICH_TEXT_LIMIT < c0.length
        · simp only [expandRichTextObj, if_pos hlong] at hin
          obtain ⟨chunk, hchunk, heq⟩ := List.mem_map.mp hin
          have hlen := splitChunks_chunk_le c0.toList chunk hchunk
          have : c = String.mk chunk := by
            injection heq with h1 h2
            exact h1.symm
          rw [this]
          simpa [String.length] using hlen
        · simp only [expandRichTextObj, if_neg hlong] at hin
          rcases List.mem_singleton.mp hin with heq
          injection heq with h1 h2
          subst h1
          omega
    | other payload =>
        simp only [expandRichTextObj] at hin
        rcases List.mem_singleton.mp hin with heq
        cases heq
  · intro hall
    induction richText with
    | nil => rfl
    | cons obj rest ih =>
        have hobj := hall obj (by simp)
        have hrest := ih fun o ho => hall o (by simp [ho])
        simp only [splitRichText, List.map_cons, List.flatten_cons] at hrest ⊢
        rw [expandRichTextObj_kept obj hobj, hrest]
        rfl
  · intro xs ys
    simp [splitRichText, List.map_append, List.flatten_append]
  · intro c f hlong
    refine ⟨?_, splitChunks_flatten c.toList, splitChunks_chunk_le c.toList⟩
    simp [splitRichText, expandRichTextObj, if_pos hlong]

/-- Witness for `split_rich_text_spec`: a short text run and a non-text
run pass through unchanged. -/
theorem split_rich_text_spec_witness :
    splitRichText [RichText.text "short" "f", RichText.other "eq"] =
      [RichText.text "short" "f", RichText.other "eq"] :=
  (split_rich_text_spec [RichText.text "short" "f",
      RichText.other "eq"]).2.1
    (by
      intro obj hobj
      rcases List.mem_cons.mp hobj with h | h
      · subst h
        simp only [keptWhole, NOTION_RICH_TEXT_LIMIT]
        decide
      · rcases List.mem_singleton.mp h with h
        subst h
        simp [keptWhole])

/-- Environment of `_notion_scripts/upload_files.py`: `localSha url` is the
content digest of the existing local file behind a `file://` URL (`none`
when the URL is not a file URL or the file does not exist, the
`_process_file_url` early returns); `uploadedUrl url` is the Notion URL
the service reports for a fresh upload of that file (`none` models the
`RuntimeError` path where no URL can be determined); `resolves assetUrl`
says whether a Notion asset URL still resolves — it is part of the
environment so that claims about existence checks can be stated, and the
tool never consults it. -/
structure FilesEnv where
  localSha : String → Option String
  uploadedUrl : String → Option String
  resolves : String → Bool

/-- Observable actions of the tool's `main`: a fresh upload, a cache-hit
reuse (`File already mapped`), and a pruned mapping entry
(`Removed unused mapping`). -/
inductive FileAction where
  | uploaded (url sha : String)
  | alreadyMapped (sha : String)
  | removedMapping (sha : String)
deriving DecidableEq, Repr

/-- `dict.get` on the SHA mapping (first matching key). -/
def lookupSha (sha : String) : List (String × String) → Option String
  | [] => none
  | (k, v) :: rest => if k = sha then some v else lookupSha sha rest

/-- `sha_mapping[file_sha] = notion_url`: update in place, else append. -/
def insertSha (sha url : String) :
    List (String × String) → List (String × String)
  | [] => [(sha, url)]
  | (k, v) :: rest =>
      if k = sha then (k, url) :: rest else (k, v) :: insertSha sha url rest

/-- Embedding of `_process_file_url`: `("", None)` unless the URL is a
`file://` URL of an existing local file; otherwise the file's digest and
the cached Notion URL for that digest, if any. -/
def processFileUrl (localSha : String → Option String) (url : String)
    (shaMapping : List (String × String)) : String × Option String :=
  match localSha url with
  | none => ("", none)
  | some fileSha => (fileSha, lookupSha fileSha shaMapping)

/-- The `for file_url in file_urls` loop of `main`: a falsy (empty) digest
is skipped; otherwise the digest joins `referenced_shas` (a set — added
only if absent); a cache hit just echoes; a cache miss uploads, failing
(`RuntimeError`) when no Notion URL can be determined, else records the
new digest→URL entry. -/
def processUrlsLoop (env : FilesEnv) :
    List String → List (String × String) → List String → List FileAction →
    Except String (List (String × String) × List String × List FileAction)
  | [], shaMapping, referencedShas, actions =>
      Except.ok (shaMapping, referencedShas, actions)
  | url :: rest, shaMapping, referencedShas, actions =>
      let pr := processFileUrl env.localSha url shaMapping
      if pr.1 = "" then
        processUrlsLoop env rest shaMapping referencedShas actions
      else
        let referenced :=
          if pr.1 ∈ referencedShas then referencedShas
          else referencedShas ++ [pr.1]
        match pr.2 with
        | some _ =>
            processUrlsLoop env rest shaMapping referenced
              (actions ++ [FileAction.alreadyMapped pr.1])
        | none =>
            match env.uploadedUrl url with
            | none => Except.error url
            | some notionUrl =>
                processUrlsLoop env rest (insertSha pr.1 notionUrl shaMapping)
                  referenced (actions ++ [FileAction.uploaded url pr.1])

/-- The pruning loop `for sha in list(sha_mapping.keys())`: pop every
entry whose digest is not in `referenced_shas`, echoing a removal per
popped entry, in order. -/
def pruneMapping (referencedShas : List String) :
    List (String × String) → List (String × String) × List FileAction
  | [] => ([], [])
  | (k, v) :: rest =>
      if k ∈ referencedShas then
        let pr := pruneMapping referencedShas rest
        ((k, v) :: pr.1, pr.2)
      else
        let pr := pruneMapping referencedShas rest
        (pr.1, FileAction.removedMapping k :: pr.2)

/-- Embedding of `main` from `_notion_scripts/upload_files.py` (from the
extracted file URLs onward): process every file URL, then prune the
mapping to the referenced digests, then write the mapping out.  Returns
the written mapping, the referenced digests and the action trace. -/
def runUploadFilesMain (env : FilesEnv) (fileUrls : List String)
    (mappingFileContent : List (String × String)) :
    Except String (List (String × String) × List String × List FileAction) :=
  match processUrlsLoop env fileUrls mappingFileContent [] [] with
  | Except.error e => Except.error e
  | Except.ok (shaMapping, referencedShas, actions) =>
      let pruned := pruneMapping referencedShas shaMapping
      Except.ok (pruned.1, referencedShas, actions ++ pruned.2)

lemma pruneMapping_mem (referencedShas : List String) :
    ∀ (m : List (String × String)) (k v : String),
      (k, v) ∈ (pruneMapping referencedShas m).1 →
      k ∈ referencedShas ∧ (k, v) ∈ m := by
  intro m
  induction m with
  | nil => intro k v h; simp [pruneMapping] at h
  | cons kv rest ih =>
      intro k v h
      obtain ⟨k0, v0⟩ := kv
      by_cases hk : k0 ∈ referencedShas
      · simp only [pruneMapping, if_pos hk] at h
        rcases List.mem_cons.mp h with hhead | htail
        · obtain ⟨h1, h2⟩ := Prod.mk.injEq .. ▸ hhead
          subst h1
          subst h2
          exact ⟨hk, by simp⟩
        · obtain ⟨hr, hm⟩ := ih k v htail
          exact ⟨hr, by simp [hm]⟩
      · simp only [pruneMapping, if_neg hk] at h
        obtain ⟨hr, hm⟩ := ih k v h
        exact ⟨hr, by simp [hm]⟩

lemma pruneMapping_keeps (referencedShas : List String) :
    ∀ (m : List (String × String)) (k v : String),
      (k, v) ∈ m → k ∈ referencedShas →
      (k, v) ∈ (pruneMapping referencedShas m).1 := by
  intro m
  induction m with
  | nil => intro k v h _; simp at h
  | cons kv rest ih =>
      intro k v h hr
      obtain ⟨k0, v0⟩ := kv
      rcases List.mem_cons.mp h with hhead | htail
      · obtain ⟨h1, h2⟩ := Prod.mk.injEq .. ▸ hhead
        subst h1
        subst h2
        simp [pruneMapping, if_pos hr]
      · by_cases hk : k0 ∈ referencedShas
        · simp only [pruneMapping, if_pos hk]
          exact List.mem_cons_of_mem _ (ih k v htail hr)
        · simp only [pruneMapping, if_neg hk]
          exact ih k v htail hr

lemma pruneMapping_actions (referencedShas : List String) :
    ∀ (m : List (String × String)) (a : FileAction),
      a ∈ (pruneMapping referencedShas m).2 →
      ∃ k, a = FileAction.removedMapping k := by
  intro m
  induction m with
  | nil => intro a h; simp [pruneMapping] at h
  | cons kv rest ih =>
      intro a h
      obtain ⟨k0, v0⟩ := kv
      by_cases hk : k0 ∈ referencedShas
      · simp only [pruneMapping, if_pos hk] at h
        exact ih a h
      · simp only [pruneMapping, if_neg hk] at h
        rcases List.mem_cons.mp h with hhead | htail
        · exact ⟨k0, hhead⟩
        · exact ih a htail

lemma processUrlsLoop_refs_sound (env : FilesEnv) :
    ∀ (urls : List String) (m : List (String × String))
      (refs0 : List String) (acts0 : List FileAction)
      (m1 : List (String × String)) (refs1 : List String)
      (acts1 : List FileAction),
      processUrlsLoop env urls m refs0 acts0 =
        Except.ok (m1, refs1, acts1) →
      ∀ s ∈ refs1, s ∈ refs0 ∨ ∃ url ∈ urls, env.localSha url = some s := by
  intro urls
  induction urls with
  | nil =>
      intro m refs0 acts0 m1 refs1 acts1 h s hs
      simp only [processUrlsLoop, Except.ok.injEq, Prod.mk.injEq] at h
      obtain ⟨h1, h2, h3⟩ := h
      exact Or.inl (h2 ▸ hs)
  | cons url rest ih =>
      intro m refs0 acts0 m1 refs1 acts1 h s hs
      simp only [processUrlsLoop] at h
      cases hsha : env.localSha url with
      | none =>
          rw [show processFileUrl env.localSha url m = ("", none) by
            simp [processFileUrl, hsha]] at h
          simp only [if_pos rfl] at h
          rcases ih m refs0 acts0 m1 refs1 acts1 h s hs with h0 | ⟨u, hu, he⟩
          · exact Or.inl h0
          · exact Or.inr ⟨u, by simp [hu], he⟩
      | some sha =>
          rw [show processFileUrl env.localSha url m =
              (sha, lookupSha sha m) by simp [processFileUrl, hsha]] at h
          by_cases hempty : sha = ""
          · subst hempty
            simp only [if_pos rfl] at h
            rcases ih m refs0 acts0 m1 refs1 acts1 h s hs with h0 | ⟨u, hu, he⟩
            · exact Or.inl h0
            · exact Or.inr ⟨u, by simp [hu], he⟩
          · simp only [if_neg hempty] at h
            have hrefs : ∀ t, t ∈ (if sha ∈ refs0 then refs0
                else refs0 ++ [sha]) → t ∈ refs0 ∨ t = sha := by
              intro t ht
              by_cases hin : sha ∈ refs0
              · rw [if_pos hin] at ht
                exact Or.inl ht
              · rw [if_neg hin] at ht
                rcases List.mem_append.mp ht with h0 | h1
                · exact Or.inl h0
                · exact Or.inr (by simpa using h1)
            cases hlook : lookupSha sha m with
            | some cachedUrl =>
                rw [hlook] at h
                simp only at h
                rcases ih m _ _ m1 refs1 acts1 h s hs with h0 | ⟨u, hu, he⟩
                · rcases hrefs s h0 with h0 | h0
                  · exact Or.inl h0
                  · exact Or.inr ⟨url, by simp, h0 ▸ hsha⟩
                · exact Or.inr ⟨u, by simp [hu], he⟩
            | none =>
                rw [hlook] at h
                cases hup : env.uploadedUrl url with
                | none => rw [hup] at h; simp at h
                | some notionUrl =>
                    rw [hup] at h
                    simp only at h
                    rcases ih _ _ _ m1 refs1 acts1 h s hs with
                      h0 | ⟨u, hu, he⟩
                    · rcases hrefs s h0 with h0 | h0
                      · exact Or.inl h0
                      · exact Or.inr ⟨url, by simp, h0 ▸ hsha⟩
                    · exact Or.inr ⟨u, by simp [hu], he⟩

/-- C10.  After a successful run of the file-upload tool's `main`, every
key remaining in the persisted SHA mapping is the content digest of a
local file actually referenced by the current build file: each remaining
entry's key is the digest of an existing local file behind one of the
referenced file URLs (pre-existing entries with other digests were pruned
before the mapping was written). -/
theorem sha_mapping_keys_all_referenced (env : FilesEnv)
    (fileUrls : List String) (mappingFileContent : List (String × String))
    (finalMapping : List (String × String)) (referencedShas : List String)
    (actions : List FileAction)
    (hrun : runUploadFilesMain env fileUrls mappingFileContent =
      Except.ok (finalMapping, referencedShas, actions)) :
    ∀ k v, (k, v) ∈ finalMapping →
      k ∈ referencedShas ∧ ∃ url ∈ fileUrls, env.localSha url = some k := by
  intro k v hmem
  simp only [runUploadFilesMain] at hrun
  cases hloop : processUrlsLoop env fileUrls mappingFileContent [] [] with
  | error e => rw [hloop] at hrun; simp at hrun
  | ok res =>
      obtain ⟨m1, refs1, acts1⟩ := res
      rw [hloop] at hrun
      simp only [Except.ok.injEq, Prod.mk.injEq] at hrun
      obtain ⟨h1, hrefs, hacts⟩ := hrun
      subst h1
      subst hrefs
      obtain ⟨hk, hkv⟩ := pruneMapping_mem refs1 m1 k v hmem
      refine ⟨hk, ?_⟩
      rcases processUrlsLoop_refs_sound env fileUrls mappingFileContent
        [] [] m1 refs1 acts1 hloop k hk with h0 | h0
      · simp at h0
      · exact h0

/-- Concrete environment used by the witnesses and the counterexample:
one referenced file `file:///a` with digest `"aa"`, a service that would
report `n1` for fresh uploads, and no asset URL resolving. -/
def filesEnvW : FilesEnv where
  localSha := fun u => if u = "file:///a" then some "aa" else none
  uploadedUrl := fun _ => some "n1"
  resolves := fun _ => false

/-- Witness for `sha_mapping_keys_all_referenced`: the stale entry `bb`
is pruned and the surviving key `aa` is the digest of the referenced
file. -/
theorem sha_mapping_keys_all_referenced_witness :
    "aa" ∈ ["aa"] ∧
      ∃ url ∈ ["file:///a"], filesEnvW.localSha url = some "aa" :=
  sha_mapping_keys_all_referenced filesEnvW ["file:///a"]
    [("aa", "old"), ("bb", "stale")] [("aa", "old")] ["aa"]
    [FileAction.alreadyMapped "aa", FileAction.removedMapping "bb"]
    (by rfl) "aa" "old" (by simp)

/-- The specification's cache-hit contract for the file deduplicator in
`upload_files.py`: on a SHA-cache hit, verify that the cached asset still
resolves (a lightweight existence check) before reusing it, and on
verification failure fall through to a fresh upload. -/
def cacheHitVerificationClaim : Prop :=
  ∀ (env : FilesEnv) (url sha cachedUrl : String)
    (mapping0 finalMapping : List (String × String))
    (refs : List String) (acts : List FileAction),
    env.localSha url = some sha →
    lookupSha sha mapping0 = some cachedUrl →
    env.resolves cachedUrl = false →
    runUploadFilesMain env [url] mapping0 =
      Except.ok (finalMapping, refs, acts) →
    FileAction.uploaded url sha ∈ acts

/-- Counterexample to C7 as stated: with the cached asset not resolving
(`filesEnvW.resolves` is constantly `false`), the tool still reuses the
cached URL and performs no upload — there is no existence check and no
fall-through. -/
theorem cache_hit_no_verification_counterexample :
    ¬ cacheHitVerificationClaim := by
  intro hclaim
  have h := hclaim filesEnvW "file:///a" "aa" "cached"
    [("aa", "cached")] [("aa", "cached")] ["aa"]
    [FileAction.alreadyMapped "aa"] (by rfl) (by rfl) (by rfl) (by rfl)
  simp at h

/-- C7 (amended).  On a SHA-cache hit the tool reuses the cached mapping
entry without consulting any existence check and without uploading: the
run succeeds, the cached entry survives into the written mapping, and the
action trace contains only the cache-hit echo and pruning echoes — no
upload. -/
theorem cache_hit_reuses_without_verification (env : FilesEnv)
    (url sha cachedUrl : String) (mapping0 : List (String × String))
    (hsha : env.localSha url = some sha) (hne : sha ≠ "")
    (hhit : lookupSha sha mapping0 = some cachedUrl) :
    runUploadFilesMain env [url] mapping0 =
      Except.ok ((pruneMapping [sha] mapping0).1, [sha],
        FileAction.alreadyMapped sha :: (pruneMapping [sha] mapping0).2) ∧
    (sha, cachedUrl) ∈ (pruneMapping [sha] mapping0).1 ∧
    (∀ a ∈ FileAction.alreadyMapped sha ::
        (pruneMapping [sha] mapping0).2,
      a = FileAction.alreadyMapped sha ∨
        ∃ k, a = FileAction.removedMapping k) := by
  have hlookmem : (sha, cachedUrl) ∈ mapping0 := by
    clear hsha
    induction mapping0 with
    | nil => simp [lookupSha] at hhit
    | cons kv rest ih =>
        obtain ⟨k0, v0⟩ := kv
        by_cases hk : k0 = sha
        · subst hk
          simp only [lookupSha, if_true, Option.some.injEq] at hhit
          subst hhit
          simp
        · simp only [lookupSha, if_neg hk] at hhit
          exact List.mem_cons_of_mem _ (ih hhit)
  refine ⟨?_, ?_, ?_⟩
  · simp only [runUploadFilesMain, processUrlsLoop, processFileUrl, hsha]
    simp only [if_neg hne, hhit]
    simp
  · exact pruneMapping_keeps [sha] mapping0 sha cachedUrl hlookmem
      (by simp)
  · intro a ha
    rcases List.mem_cons.mp ha with hhead | htail
    · exact Or.inl hhead
    · exact Or.inr (pruneMapping_actions [sha] mapping0 a htail)

/-- Witness for `cache_hit_reuses_without_verification` at the concrete
environment. -/
theorem cache_hit_reuses_without_verification_witness :
    runUploadFilesMain filesEnvW ["file:///a"] [("aa", "cached")] =
      Except.ok ([("aa", "cached")], ["aa"],
        [FileAction.alreadyMapped "aa"]) := by
  have h := cache_hit_reuses_without_verification filesEnvW "file:///a"
    "aa" "cached" [("aa", "cached")] (by rfl) (by decide) (by rfl)
  have h1 := h.1
  simpa [pruneMapping] using h1

end SphinxNotion
